import Mathlib

/-!
Verification development for the poller server (src/server.py): a shallow
embedding of its value parser, dot-path resolver, in-memory series store,
CSV persistence layer, compactor and poll cycle, together with theorems
about the specified properties.

Python floats are modelled as exact rationals; machine timestamps as
integers.  Strings are modelled through their character lists.
-/

set_option maxRecDepth 8000

attribute [local semireducible] Rat.mul Rat.inv Rat.add Rat.sub

namespace MinerPoll

/-! Character utilities modelling the Python string primitives used by
    src/server.py. -/

/-- ASCII decimal digit test, modelling the regex class 0-9 and
    Python's own decimal-literal digits. -/
def isPyDigit (c : Char) : Bool := decide (48 ≤ c.toNat) && decide (c.toNat ≤ 57)

/-- ASCII whitespace test, modelling the regex whitespace class and the
    whitespace stripped by Python float() / int(). -/
def isPySpace (c : Char) : Bool :=
  (c.toNat == 32) || (c.toNat == 9) || (c.toNat == 10) ||
  (c.toNat == 13) || (c.toNat == 11) || (c.toNat == 12)

/-- Decimal digit character for a value below ten. -/
def digitChar : ℕ → Char
  | 0 => '0'
  | 1 => '1'
  | 2 => '2'
  | 3 => '3'
  | 4 => '4'
  | 5 => '5'
  | 6 => '6'
  | 7 => '7'
  | 8 => '8'
  | 9 => '9'
  | _ => '0'

/-- Numeric value of a decimal digit character. -/
def digitVal (c : Char) : ℕ := c.toNat - 48

/-- Value of a most-significant-first list of decimal digit characters. -/
def digitsToNat (l : List Char) : ℕ := l.foldl (fun a c => 10 * a + digitVal c) 0

/-- Fuelled digit extraction: decimal digits of n, most significant first. -/
def natToDigitsAux : ℕ → ℕ → List Char
  | 0, _ => []
  | fuel + 1, n => if n = 0 then [] else natToDigitsAux fuel (n / 10) ++ [digitChar (n % 10)]

/-- Decimal rendering of a natural number, modelling Python str on a
    non-negative int. -/
def natDecimal (n : ℕ) : List Char :=
  if n = 0 then ['0'] else natToDigitsAux (n + 1) n

/-- Decimal rendering of an integer, modelling Python str on an int. -/
def intDecimal (n : ℤ) : List Char :=
  if n < 0 then '-' :: natDecimal (-n).toNat else natDecimal n.toNat

/-! Python numeric-literal parsing: models of CPython int() and float()
    applied to strings (finite decimal literals; the inf and nan
    spellings accepted by float() are outside the inputs this program
    handles and are not modelled). -/

/-- Sign processing at the front of a Python numeric literal. -/
def parseSign (l : List Char) : ℤ × List Char :=
  match l with
  | [] => (1, [])
  | c :: r => if c = '+' then (1, r) else if c = '-' then (-1, r) else (1, c :: r)

/-- Characters admissible in a Python digit run: digits and the
    underscore group separator. -/
def isRunChar (c : Char) : Bool := isPyDigit c || (c == '_')

/-- Validity of the tail of a digit run: every underscore must be
    followed by a digit. -/
def runTail : List Char → Bool
  | [] => true
  | c :: r =>
    (if c = '_' then !r.isEmpty && isPyDigit (r.headD '0') else isPyDigit c) && runTail r

/-- Validity of a Python digit run: non-empty, starts with a digit, and
    every underscore sits between digits. -/
def runOK : List Char → Bool
  | [] => false
  | c :: r => isPyDigit c && runTail r

/-- Digit characters of a run with the underscores removed. -/
def runDigits (l : List Char) : List Char := l.filter (fun c => !(c == '_'))

/-- Numeric value of a digit run. -/
def runVal (l : List Char) : ℕ := digitsToNat (runDigits l)

/-- Model of Python int() applied to a string. -/
def pyIntParse (l : List Char) : Option ℤ :=
  let l1 := l.dropWhile isPySpace
  let s := parseSign l1
  let run := s.2.takeWhile isRunChar
  let rest := s.2.dropWhile isRunChar
  if runOK run && (rest.dropWhile isPySpace).isEmpty then
    some (s.1 * (runVal run : ℤ))
  else Option.none

/-- Integer power of ten over the rationals. -/
def qpow10 (e : ℤ) : ℚ := (10 : ℚ) ^ e

/-- Exponent-and-trailing-whitespace part of a Python float literal;
    returns the scale factor it denotes. -/
def pyFloatExp (l : List Char) : Option ℚ :=
  match l with
  | [] => some 1
  | c :: r =>
    if c = 'e' ∨ c = 'E' then
      let s := parseSign r
      let er := s.2.takeWhile isRunChar
      let r2 := s.2.dropWhile isRunChar
      if runOK er && (r2.dropWhile isPySpace).isEmpty then
        some (qpow10 (s.1 * (runVal er : ℤ)))
      else Option.none
    else if ((c :: r).dropWhile isPySpace).isEmpty then some 1 else Option.none

/-- Model of Python float() applied to a string (finite literals). -/
def pyFloatParse (l : List Char) : Option ℚ :=
  let l1 := l.dropWhile isPySpace
  let s := parseSign l1
  let ip := s.2.takeWhile isRunChar
  let r1 := s.2.dropWhile isRunChar
  match r1 with
  | [] => if runOK ip then some ((s.1 : ℚ) * (runVal ip : ℚ)) else Option.none
  | c :: r2 =>
    if c = '.' then
      let fp := r2.takeWhile isRunChar
      let r3 := r2.dropWhile isRunChar
      if ip.isEmpty && fp.isEmpty then Option.none
      else if !ip.isEmpty && !runOK ip then Option.none
      else if !fp.isEmpty && !runOK fp then Option.none
      else
        (pyFloatExp r3).map (fun pw =>
          (s.1 : ℚ) * ((runVal ip : ℚ) +
            (runVal fp : ℚ) / (10 : ℚ) ^ (runDigits fp).length) * pw)
    else if runOK ip then
      (pyFloatExp (c :: r2)).map (fun pw => (s.1 : ℚ) * (runVal ip : ℚ) * pw)
    else Option.none

/-! Model of the Python values processed by the server: the shapes the
    json module can produce plus the floats the code synthesises.  In
    Python, bool is a subclass of int, so isinstance checks against int
    accept booleans; the embedding mirrors that. -/

inductive PyVal where
  | vnone : PyVal
  | vbool : Bool → PyVal
  | vint : ℤ → PyVal
  | vfloat : ℚ → PyVal
  | vstr : String → PyVal
  | vlist : List PyVal → PyVal
  | vdict : List (String × PyVal) → PyVal

/-- Error raised by parse_unit_number; carries the offending value, as
    the ValueError message in the source interpolates val. -/
inductive ParseError where
  | cannotParse : PyVal → ParseError

/-! Value parser: embedding of parse_unit_number (src/server.py lines
    65-84) including UNIT_MAP and the suffix regex. -/

/-- The UNIT_MAP table of src/server.py line 65. -/
def UNIT_MAP : List (String × ℚ) :=
  [("", 1), ("K", 1000), ("M", 1000000), ("G", 1000000000),
   ("T", 1000000000000), ("P", 1000000000000000)]

/-- Association lookup with default, modelling Python dict.get(k, d). -/
def qlookupD : List (String × ℚ) → String → ℚ → ℚ
  | [], _, d => d
  | (k, v) :: rest, key, d => if k = key then v else qlookupD rest key d

/-- ASCII upper-casing of a character, modelling str.upper on the unit
    letters. -/
def pyUpper (c : Char) : Char := c.toUpper

/-- The regex number group 0-9* dot? 0-9+, parsed greedily from the
    front of l; returns its rational value and the unconsumed rest. -/
def parseDecimal (l : List Char) : Option (ℚ × List Char) :=
  let d1 := l.takeWhile isPyDigit
  let r1 := l.dropWhile isPyDigit
  match r1 with
  | [] => if d1.isEmpty then Option.none else some ((digitsToNat d1 : ℚ), [])
  | c :: r2 =>
    if c = '.' then
      let d2 := r2.takeWhile isPyDigit
      let r3 := r2.dropWhile isPyDigit
      if d2.isEmpty then Option.none
      else some (((digitsToNat d1 : ℚ) + (digitsToNat d2 : ℚ) / (10 : ℚ) ^ d2.length), r3)
    else if d1.isEmpty then Option.none else some ((digitsToNat d1 : ℚ), c :: r2)

/-- The unit-suffix character class of the regex on line 75. -/
def isUnitChar (c : Char) : Bool :=
  (c == 'k') || (c == 'K') || (c == 'm') || (c == 'M') || (c == 'g') || (c == 'G') ||
  (c == 't') || (c == 'T') || (c == 'p') || (c == 'P')

/-- Full match of the regex on line 75 against l: optional whitespace, a
    decimal number, optional whitespace, an optional unit letter,
    optional whitespace.  Returns the number's value and the captured
    unit letter (group 2), if the whole string matches. -/
def matchUnit (l : List Char) : Option (ℚ × Option Char) :=
  let l1 := l.dropWhile isPySpace
  match parseDecimal l1 with
  | Option.none => Option.none
  | some p =>
    match p.2.dropWhile isPySpace with
    | [] => some (p.1, Option.none)
    | c :: r3 =>
      if isUnitChar c then
        if (r3.dropWhile isPySpace).isEmpty then some (p.1, some c) else Option.none
      else Option.none

/-- Key under which the captured, upper-cased unit group is looked up in
    UNIT_MAP: the empty string for an absent group, else the one-letter
    string. -/
def unitKey : Option Char → String
  | Option.none => ""
  | some c => String.mk [c]

/-- Embedding of parse_unit_number (src/server.py lines 67-84).  Numeric
    inputs (ints, floats, and bools, which Python treats as ints) pass
    through float(); strings are matched against the unit regex and then
    tried as plain float literals; everything else raises. -/
def parse_unit_number (val : PyVal) : Except ParseError ℚ :=
  match val with
  | .vbool b => .ok (if b then 1 else 0)
  | .vint n => .ok ((n : ℚ))
  | .vfloat q => .ok q
  | .vstr s =>
    match matchUnit s.data with
    | some p => .ok (p.1 * qlookupD UNIT_MAP (unitKey (p.2.map pyUpper)) 1)
    | Option.none =>
      match pyFloatParse s.data with
      | some q => .ok q
      | Option.none => .error (.cannotParse (.vstr s))
  | v => .error (.cannotParse v)

/-- Model of Python float() applied to an arbitrary value; used for
    float(lastshare) and the scale factors. -/
def pyFloatOf (v : PyVal) : Except Unit ℚ :=
  match v with
  | .vbool b => .ok (if b then 1 else 0)
  | .vint n => .ok ((n : ℚ))
  | .vfloat q => .ok q
  | .vstr s =>
    match pyFloatParse s.data with
    | some q => .ok q
    | Option.none => .error ()
  | _ => .error ()

/-! Path resolver: embedding of get_by_dot_path (src/server.py lines
    86-104). -/

/-- Model of Python str.split on a single dot. -/
def splitOnDot : List Char → List (List Char)
  | [] => [[]]
  | c :: r =>
    if c = '.' then [] :: splitOnDot r
    else
      match splitOnDot r with
      | [] => [[c]]
      | s :: rest => (c :: s) :: rest

/-- Error raised by get_by_dot_path; the spec maps badSegment to
    InvalidPath and the other two to PathNotFound. -/
inductive PathError where
  | badSegment : List Char → PathError
  | keyNotFound : String → List Char → PathError
  | indexOutOfRange : ℕ → String → List Char → PathError

/-- True on the errors the spec calls PathNotFound. -/
def PathError.isNotFound : PathError → Bool
  | .badSegment _ => false
  | .keyNotFound _ _ => true
  | .indexOutOfRange _ _ _ => true

/-- Full match of the segment regex on line 92: a non-empty run of
    non-bracket characters, optionally followed by a bracketed decimal
    index. -/
def parseSegment (part : List Char) : Option (String × Option ℕ) :=
  let key := part.takeWhile (fun c => !((c == '[') || (c == ']')))
  let rest := part.dropWhile (fun c => !((c == '[') || (c == ']')))
  if key.isEmpty then Option.none
  else
    match rest with
    | [] => some (String.mk key, Option.none)
    | c :: r2 =>
      if c = '[' then
        let ds := r2.takeWhile isPyDigit
        let r3 := r2.dropWhile isPyDigit
        if !ds.isEmpty && (r3 == [']']) then some (String.mk key, some (digitsToNat ds))
        else Option.none
      else Option.none

/-- First-match association lookup, modelling Python dict indexing over
    the unique-keyed dicts produced by the json module. -/
def dlookup : List (String × PyVal) → String → Option PyVal
  | [], _ => Option.none
  | (k, v) :: rest, key => if k = key then some v else dlookup rest key

/-- The per-segment navigation loop of get_by_dot_path. -/
def pathGo (path : List Char) : PyVal → List (List Char) → Except PathError PyVal
  | cur, [] => .ok cur
  | cur, part :: rest =>
    match parseSegment part with
    | Option.none => .error (.badSegment part)
    | some seg =>
      match cur with
      | .vdict d =>
        match dlookup d seg.1 with
        | Option.none => .error (.keyNotFound seg.1 path)
        | some v =>
          match seg.2 with
          | Option.none => pathGo path v rest
          | some i =>
            match v with
            | .vlist l =>
              match l.get? i with
              | some x => pathGo path x rest
              | Option.none => .error (.indexOutOfRange i seg.1 path)
            | _ => .error (.indexOutOfRange i seg.1 path)
      | _ => .error (.keyNotFound seg.1 path)

/-- Embedding of get_by_dot_path (src/server.py lines 86-104). -/
def get_by_dot_path (obj : PyVal) (path : List Char) : Except PathError PyVal :=
  pathGo path obj (splitOnDot path)

/-- Segment-wise parse of a split path, when every segment matches the
    segment regex. -/
def segsOf : List (List Char) → Option (List (String × Option ℕ))
  | [] => some []
  | p :: rest =>
    match parseSegment p with
    | Option.none => Option.none
    | some s =>
      match segsOf rest with
      | Option.none => Option.none
      | some l => some (s :: l)

/-- The parsed segments of a path, when every segment matches the
    segment regex. -/
def parsePath (path : List Char) : Option (List (String × Option ℕ)) :=
  segsOf (splitOnDot path)

/-- The structure contains the nesting described by the segments, with
    the given leaf at the end. -/
inductive HasPath : PyVal → List (String × Option ℕ) → PyVal → Prop where
  | nil (v : PyVal) : HasPath v [] v
  | key (d : List (String × PyVal)) (k : String) (v : PyVal)
      (rest : List (String × Option ℕ)) (leaf : PyVal) :
      dlookup d k = some v → HasPath v rest leaf →
      HasPath (.vdict d) ((k, Option.none) :: rest) leaf
  | idx (d : List (String × PyVal)) (k : String) (l : List PyVal) (i : ℕ) (x : PyVal)
      (rest : List (String × Option ℕ)) (leaf : PyVal) :
      dlookup d k = some (.vlist l) → l.get? i = some x → HasPath x rest leaf →
      HasPath (.vdict d) ((k, some i) :: rest) leaf

/-! Series store: embedding of the per-metric deque discipline.  A
    series is the list of (timestamp ms, value) samples, oldest first
    (deque head at the front). -/

/-- Append to a deque with maxlen C: the oldest element is discarded
    when the capacity is exceeded (src/server.py line 119 deque maxlen
    and line 242 append). -/
def dequeAppend {α : Type} (C : ℕ) (s : List α) (x : α) : List α :=
  (s ++ [x]).drop (s.length + 1 - C)

/-- The explicit retention loop of src/server.py lines 244-245: pop from
    the head while the head is strictly older than the horizon. -/
def timeEvict (H : ℤ) (t : ℤ) (s : List (ℤ × ℚ)) : List (ℤ × ℚ) :=
  s.dropWhile (fun p => decide (H < t - p.1))

/-- One append of the poll cycle to one metric's series: deque push with
    capacity eviction, then time-based eviction (lines 242-245). -/
def appendSample (C : ℕ) (H : ℤ) (s : List (ℤ × ℚ)) (t : ℤ) (v : ℚ) : List (ℤ × ℚ) :=
  timeEvict H t (dequeAppend C s (t, v))

/-- N successive appends into an initially empty series. -/
def runSeries (C : ℕ) (H : ℤ) (samples : List (ℤ × ℚ)) : List (ℤ × ℚ) :=
  samples.foldl (fun s p => appendSample C H s p.1 p.2) []

/-- The in-memory store, metric name to series. -/
def Store : Type := String → List (ℤ × ℚ)

/-- Pointwise update of the store at one metric. -/
def updateStore (st : Store) (name : String) (l : List (ℤ × ℚ)) : Store :=
  fun m => if m = name then l else st m

/-- The store of freshly created empty deques. -/
def emptyStore : Store := fun _ => []

/-! Durable log: embedding of the CSV persistence (src/server.py lines
    122-199).  A file is its header row plus its data rows; csv quoting
    round-trips field strings exactly, so rows are modelled as lists of
    field strings. -/

/-- The CSV schema header of line 125. -/
def CSV_HEADER : List String := ["ts_ms", "metric", "value"]

/-- A CSV file: header row and data rows. -/
abbrev CsvFile : Type := List String × List (List String)

/-- Correct rounding to an integer with ties to even, as used by the
    decimal conversion underlying the %g format. -/
def roundHalfEven (q : ℚ) : ℤ :=
  let f := ⌊q⌋
  let r := q - (f : ℚ)
  if r < 1 / 2 then f else if 1 / 2 < r then f + 1 else if f % 2 = 0 then f else f + 1

/-- Number of decimal digits of a positive natural number. -/
def digitCount (n : ℕ) : ℕ := (natDecimal n).length

/-- Decimal exponent of a positive rational: the e with 10^e ≤ x <
    10^(e+1). -/
def decExp (x : ℚ) : ℤ :=
  let d : ℤ := (digitCount x.num.toNat : ℤ) - (digitCount x.den : ℤ)
  if x < qpow10 d then d - 1 else d

/-- Strip trailing zero characters. -/
def stripZeros (l : List Char) : List Char :=
  (l.reverse.dropWhile (fun c => c == '0')).reverse

/-- Render a non-negative exponent with at least two digits, as %g
    does. -/
def expDigits (e : ℕ) : List Char :=
  let ds := natDecimal e
  if ds.length < 2 then '0' :: ds else ds

/-- The %.12g rendering of a positive rational. -/
def format12gPos (x : ℚ) : List Char :=
  let e0 := decExp x
  let n0 := roundHalfEven (x / qpow10 (e0 - 11))
  let n : ℤ := if n0 = 10 ^ 12 then 10 ^ 11 else n0
  let e : ℤ := if n0 = 10 ^ 12 then e0 + 1 else e0
  let ds := natDecimal n.toNat
  if -4 ≤ e ∧ e < 12 then
    if e < 0 then
      '0' :: '.' :: (List.replicate (-e - 1).toNat '0' ++ stripZeros ds)
    else
      let ip := ds.take (e.toNat + 1)
      let fp := stripZeros (ds.drop (e.toNat + 1))
      if fp.isEmpty then ip else ip ++ '.' :: fp
  else
    match ds with
    | [] => ['0']
    | d0 :: rest =>
      let mant := if (stripZeros rest).isEmpty then [d0] else d0 :: '.' :: stripZeros rest
      mant ++ 'e' :: (if e < 0 then '-' else '+') :: expDigits e.natAbs

/-- Model of the Python format f-string with spec .12g applied to a
    float (src/server.py line 142). -/
def format12g (q : ℚ) : List Char :=
  if q = 0 then ['0'] else if q < 0 then '-' :: format12gPos (-q) else format12gPos q

/-- Embedding of _persist_append (src/server.py lines 131-142): create
    the file with its header if absent, then append one row per batch
    entry. -/
def persist_append (file : Option CsvFile) (ts : ℤ) (batch : List (String × ℚ)) : CsvFile :=
  let f := file.getD (CSV_HEADER, [])
  (f.1, f.2 ++ batch.map (fun p => [String.mk (intDecimal ts), p.1, String.mk (format12g p.2)]))

/-- Position of a field name in a header row, modelling DictReader. -/
def fieldIndex : List String → String → Option ℕ
  | [], _ => Option.none
  | h :: t, k => if h = k then some 0 else (fieldIndex t k).map (· + 1)

/-- Field of a row under a header, modelling row[k] of DictReader; a
    missing column yields none (the row[k] access raises and the row is
    skipped). -/
def rowField (hdr row : List String) (k : String) : Option String :=
  (fieldIndex hdr k).bind (fun i => row.get? i)

/-- Row admission of _load_history_into_memory (lines 156-167): parse
    the timestamp, drop stale rows, drop unknown metrics, parse the
    value; any failure skips the row. -/
def parseLoadRow (cutoff : ℤ) (known : List String) (row : List String) :
    Option (String × ℤ × ℚ) :=
  match rowField CSV_HEADER row "ts_ms" with
  | Option.none => Option.none
  | some tsS =>
    match pyIntParse tsS.data with
    | Option.none => Option.none
    | some ts =>
      if ts < cutoff then Option.none
      else
        match rowField CSV_HEADER row "metric" with
        | Option.none => Option.none
        | some m =>
          if m ∈ known then
            match rowField CSV_HEADER row "value" with
            | Option.none => Option.none
            | some vS =>
              match pyFloatParse vS.data with
              | some v => some (m, ts, v)
              | Option.none => Option.none
          else Option.none

/-- Processing of one row during reload: an admissible row is appended
    to its metric's deque (capacity C); any other row is skipped. -/
def loadStep (cutoff : ℤ) (known : List String) (C : ℕ) (st : Store)
    (row : List String) : Store :=
  match parseLoadRow cutoff known row with
  | Option.none => st
  | some r => updateStore st r.1 (dequeAppend C (st r.1) (r.2.1, r.2.2))

/-- Embedding of _load_history_into_memory (src/server.py lines
    144-170): an absent file or a foreign header loads nothing;
    otherwise each admissible row is appended to its metric's deque
    (capacity C). -/
def load_history (file : Option CsvFile) (cutoff : ℤ) (known : List String) (C : ℕ) :
    Store :=
  match file with
  | Option.none => emptyStore
  | some f =>
    if f.1 = CSV_HEADER then f.2.foldl (loadStep cutoff known C) emptyStore
    else emptyStore

/-- The row written by _persist_append for one batch entry. -/
def persistRow (ts : ℤ) (p : String × ℚ) : List String :=
  [String.mk (intDecimal ts), p.1, String.mk (format12g p.2)]

/-- Row admission of _compact_csv (lines 184-191): rows whose timestamp
    parses, is within the horizon, and whose metric is configured are
    kept verbatim (original field strings); all other rows are
    dropped. -/
def compactRow (cutoff : ℤ) (metricNames : List String) (hdr row : List String) :
    Option (List String) :=
  match rowField hdr row "ts_ms" with
  | Option.none => Option.none
  | some tsS =>
    match pyIntParse tsS.data with
    | Option.none => Option.none
    | some ts =>
      match rowField hdr row "metric" with
      | Option.none => Option.none
      | some m =>
        if cutoff ≤ ts ∧ m ∈ metricNames then
          match rowField hdr row "value" with
          | Option.none => Option.none
          | some vS => some [tsS, m, vS]
        else Option.none

/-- Embedding of _compact_csv (src/server.py lines 172-199): rewrite the
    file as the schema header plus the admitted rows. -/
def compact_csv (file : CsvFile) (cutoff : ℤ) (metricNames : List String) : CsvFile :=
  (CSV_HEADER, file.2.filterMap (compactRow cutoff metricNames file.1))

/-! Poller: embedding of the poll cycle body (src/server.py lines
    220-259). -/

/-- The reserved computed-metric path of line 231. -/
def computedPath : List Char := "__computed__.lastshare_age_s".data

/-- Embedding of lines 232-234: the age-since-last-share computation.
    payload.get defaults the baseline to now when the key is absent; a
    non-dict payload raises. -/
def lastshareAge (payload : PyVal) (now_s : ℚ) : Except Unit ℚ :=
  match payload with
  | .vdict d =>
    match dlookup d "lastshare" with
    | some v => (pyFloatOf v).map (fun ls => max 0 (now_s - ls))
    | Option.none => .ok (max 0 (now_s - now_s))
  | _ => .error ()

/-- Per-metric extraction of lines 230-240: computed metric or
    path-resolve-then-parse, then the scale factor (default 1.0); any
    raised error is swallowed by the per-metric handler. -/
def extractMetric (payload : PyVal) (now_s : ℚ) (scales : List (String × ℚ))
    (name : String) (path : List Char) : Except Unit ℚ :=
  let base : Except Unit ℚ :=
    if path = computedPath then lastshareAge payload now_s
    else
      match get_by_dot_path payload path with
      | .error _ => .error ()
      | .ok raw =>
        match parse_unit_number raw with
        | .error _ => .error ()
        | .ok v => .ok v
  base.map (fun v => v * qlookupD scales name 1)

/-- One iteration of the metric loop of lines 228-249: on successful
    extraction, append to that metric's series and extend the batch; on
    failure, leave the accumulator untouched. -/
def pollStep (scales : List (String × ℚ)) (C : ℕ) (H : ℤ) (payload : PyVal)
    (now_s : ℚ) (t_ms : ℤ) (acc : Store × List (String × ℚ))
    (nm : String × List Char) : Store × List (String × ℚ) :=
  match extractMetric payload now_s scales nm.1 nm.2 with
  | .error _ => acc
  | .ok v =>
    (updateStore acc.1 nm.1 (appendSample C H (acc.1 nm.1) t_ms v),
     acc.2 ++ [(nm.1, v)])

/-- The metric loop of lines 228-249 over the series store, also
    accumulating the batch to persist. -/
def pollCycle (metrics : List (String × List Char)) (scales : List (String × ℚ))
    (C : ℕ) (H : ℤ) (payload : PyVal) (now_s : ℚ) (t_ms : ℤ)
    (series : Store) : Store × List (String × ℚ) :=
  metrics.foldl (pollStep scales C H payload now_s t_ms) (series, [])

/-- The full in-memory and durable state touched by one tick. -/
structure PollState where
  series : Store
  log : Option CsvFile

/-- One tick of the poller loop (lines 220-257): a failed fetch aborts
    the whole cycle before any mutation; a successful fetch runs the
    metric loop and persists the batch when non-empty. -/
def pollTick (metrics : List (String × List Char)) (scales : List (String × ℚ))
    (C : ℕ) (H : ℤ) (fetch : Except Unit PyVal) (now_s : ℚ) (t_ms : ℤ)
    (st : PollState) : PollState :=
  match fetch with
  | .error _ => st
  | .ok payload =>
    let r := pollCycle metrics scales C H payload now_s t_ms st.series
    { series := r.1,
      log := if r.2.isEmpty then st.log else some (persist_append st.log t_ms r.2) }

/-- The poller loop run over a schedule of ticks, each carrying its
    fetch outcome and clock readings. -/
def runPoller (metrics : List (String × List Char)) (scales : List (String × ℚ))
    (C : ℕ) (H : ℤ) (ticks : List (Except Unit PyVal × ℚ × ℤ)) (st : PollState) :
    PollState :=
  ticks.foldl (fun s tk => pollTick metrics scales C H tk.1 tk.2.1 tk.2.2 s) st

/-- The language of the number group of the suffix regex on line 75
    (0-9* dot? 0-9+): a non-empty digit string, or digits, a dot, and a
    non-empty digit string; paired with its decimal value. -/
inductive DecNum : List Char → ℚ → Prop where
  | int (d : List Char) : d ≠ [] → (∀ c ∈ d, isPyDigit c = true) →
      DecNum d ((digitsToNat d : ℚ))
  | frac (d1 d2 : List Char) : d2 ≠ [] → (∀ c ∈ d1, isPyDigit c = true) →
      (∀ c ∈ d2, isPyDigit c = true) →
      DecNum (d1 ++ '.' :: d2)
        ((digitsToNat d1 : ℚ) + (digitsToNat d2 : ℚ) / (10 : ℚ) ^ d2.length)

/-- Values accepted by the isinstance(val, (int, float)) test on line
    72: ints, floats, and bools, since Python bool is a subclass of
    int. -/
def isNumericPy : PyVal → Bool
  | .vbool _ => true
  | .vint _ => true
  | .vfloat _ => true
  | _ => false

/-- Strings the value parser can interpret: a full match of the
    unit-suffix regex, or a plain Python float literal. -/
def strParseable : PyVal → Bool
  | .vstr s => (matchUnit s.data).isSome || (pyFloatParse s.data).isSome
  | _ => false

theorem digitVal_digitChar {d : ℕ} (h : d < 10) : digitVal (digitChar d) = d := by
  interval_cases d <;> rfl

theorem isPyDigit_digitChar {d : ℕ} (h : d < 10) : isPyDigit (digitChar d) = true := by
  interval_cases d <;> rfl

theorem digitsToNat_append (l : List Char) (c : Char) :
    digitsToNat (l ++ [c]) = 10 * digitsToNat l + digitVal c := by
  simp [digitsToNat, List.foldl_append]

theorem digitsToNat_natToDigitsAux :
    ∀ (fuel n : ℕ), n < 10 ^ fuel → digitsToNat (natToDigitsAux fuel n) = n := by
  intro fuel
  induction fuel with
  | zero =>
    intro n hn
    simp [Nat.pow_zero] at hn
    simp [natToDigitsAux, hn, digitsToNat]
  | succ fuel ih =>
    intro n hn
    by_cases h0 : n = 0
    · simp [natToDigitsAux, h0, digitsToNat]
    · have hdiv : n / 10 < 10 ^ fuel := by
        have h10 : n < 10 ^ fuel * 10 := by
          rw [pow_succ] at hn
          exact hn
        exact Nat.div_lt_of_lt_mul (by omega)
      rw [natToDigitsAux, if_neg h0, digitsToNat_append, ih _ hdiv,
        digitVal_digitChar (Nat.mod_lt _ (by omega))]
      omega

theorem mem_natToDigitsAux_digit :
    ∀ (fuel n : ℕ) (c : Char), c ∈ natToDigitsAux fuel n → isPyDigit c = true := by
  intro fuel
  induction fuel with
  | zero => intro n c hc; simp [natToDigitsAux] at hc
  | succ fuel ih =>
    intro n c hc
    by_cases h0 : n = 0
    · simp [natToDigitsAux, h0] at hc
    · rw [natToDigitsAux, if_neg h0] at hc
      rcases List.mem_append.mp hc with h | h
      · exact ih _ _ h
      · simp at h
        rw [h]
        exact isPyDigit_digitChar (Nat.mod_lt _ (by omega))

theorem natDecimal_ne_nil (n : ℕ) : natDecimal n ≠ [] := by
  by_cases h0 : n = 0
  · simp [natDecimal, h0]
  · simp [natDecimal, h0, natToDigitsAux]

theorem digitsToNat_natDecimal (n : ℕ) : digitsToNat (natDecimal n) = n := by
  by_cases h0 : n = 0
  · simp [natDecimal, h0]
    rfl
  · rw [natDecimal, if_neg h0]
    exact digitsToNat_natToDigitsAux (n + 1) n
      (lt_trans (Nat.lt_pow_self (by omega) _) (Nat.pow_lt_pow_right (by omega) (by omega)))

theorem mem_natDecimal_digit (n : ℕ) (c : Char) (hc : c ∈ natDecimal n) :
    isPyDigit c = true := by
  by_cases h0 : n = 0
  · simp [natDecimal, h0] at hc
    rw [hc]; rfl
  · rw [natDecimal, if_neg h0] at hc
    exact mem_natToDigitsAux_digit _ _ _ hc

/-! List helper lemmas for reasoning about takeWhile / dropWhile driven
    scanning. -/

theorem dropWhile_append_all {p : Char → Bool} :
    ∀ (l1 l2 : List Char), (∀ c ∈ l1, p c = true) →
      (l1 ++ l2).dropWhile p = l2.dropWhile p := by
  intro l1
  induction l1 with
  | nil => intro l2 _; rfl
  | cons c r ih =>
    intro l2 h
    have hc : p c = true := h c (by simp)
    simp [List.dropWhile_cons, hc]
    exact ih l2 (fun x hx => h x (by simp [hx]))

theorem dropWhile_all {p : Char → Bool} :
    ∀ (l : List Char), (∀ c ∈ l, p c = true) → l.dropWhile p = [] := by
  intro l h
  have := dropWhile_append_all l [] h
  simpa using this

theorem dropWhile_cons_neg {p : Char → Bool} {c : Char} (l : List Char)
    (hc : p c = false) : (c :: l).dropWhile p = c :: l := by
  simp [List.dropWhile_cons, hc]

theorem takeWhile_append_head {p : Char → Bool} :
    ∀ (l1 l2 : List Char), (∀ c ∈ l1, p c = true) →
      (∀ c r, l2 = c :: r → p c = false) →
      (l1 ++ l2).takeWhile p = l1 := by
  intro l1
  induction l1 with
  | nil =>
    intro l2 _ h2
    cases l2 with
    | nil => rfl
    | cons c r => simp [List.takeWhile_cons, h2 c r rfl]
  | cons c r ih =>
    intro l2 h h2
    have hc : p c = true := h c (by simp)
    have ih2 := ih l2 (fun x hx => h x (by simp [hx])) h2
    simp [List.takeWhile_cons, hc, ih2]

theorem dropWhile_append_head {p : Char → Bool} :
    ∀ (l1 l2 : List Char), (∀ c ∈ l1, p c = true) →
      (∀ c r, l2 = c :: r → p c = false) →
      (l1 ++ l2).dropWhile p = l2 := by
  intro l1 l2 h h2
  rw [dropWhile_append_all l1 l2 h]
  cases l2 with
  | nil => rfl
  | cons c r => exact dropWhile_cons_neg r (h2 c r rfl)

theorem isPyDigit_not_space {c : Char} (h : isPyDigit c = true) : isPySpace c = false := by
  simp [isPyDigit] at h
  simp [isPySpace]
  omega

theorem isPyDigit_ne_chars {c : Char} (h : isPyDigit c = true) :
    c ≠ '+' ∧ c ≠ '-' ∧ c ≠ '_' ∧ c ≠ '.' := by
  refine ⟨?_, ?_, ?_, ?_⟩ <;> (intro he; subst he; exact absurd h (by decide))

theorem parseSign_minus (l : List Char) : parseSign ('-' :: l) = (-1, l) := rfl

theorem parseSign_other {c : Char} (r : List Char) (h1 : c ≠ '+') (h2 : c ≠ '-') :
    parseSign (c :: r) = (1, c :: r) := by
  rw [parseSign, if_neg h1, if_neg h2]

theorem runTail_all_digits :
    ∀ (l : List Char), (∀ c ∈ l, isPyDigit c = true) → runTail l = true := by
  intro l
  induction l with
  | nil => intro _; rfl
  | cons c r ih =>
    intro h
    have hc : isPyDigit c = true := h c (by simp)
    have hne : c ≠ '_' := (isPyDigit_ne_chars hc).2.2.1
    have ih2 := ih (fun x hx => h x (by simp [hx]))
    rw [runTail, if_neg hne, hc, ih2, Bool.and_self]

theorem runOK_all_digits (l : List Char) (hne : l ≠ [])
    (h : ∀ c ∈ l, isPyDigit c = true) : runOK l = true := by
  cases l with
  | nil => exact absurd rfl hne
  | cons c r =>
    have hc : isPyDigit c = true := h c (by simp)
    rw [runOK, hc, Bool.true_and]
    exact runTail_all_digits r (fun x hx => h x (by simp [hx]))

theorem runDigits_all_digits (l : List Char) (h : ∀ c ∈ l, isPyDigit c = true) :
    runDigits l = l := by
  rw [runDigits, List.filter_eq_self]
  intro c hc
  simp [(isPyDigit_ne_chars (h c hc)).2.2.1]

theorem pyIntParse_digits (l : List Char) (hne : l ≠ [])
    (h : ∀ c ∈ l, isPyDigit c = true) : pyIntParse l = some ((digitsToNat l : ℤ)) := by
  cases l with
  | nil => exact absurd rfl hne
  | cons c r =>
    have hc : isPyDigit c = true := h c (by simp)
    have hall : ∀ x ∈ c :: r, isRunChar x = true := by
      intro x hx
      simp [isRunChar, h x hx]
    have hps : parseSign (c :: r) = (1, c :: r) :=
      parseSign_other r (isPyDigit_ne_chars hc).1 (isPyDigit_ne_chars hc).2.1
    simp only [pyIntParse, dropWhile_cons_neg r (isPyDigit_not_space hc), hps,
      List.takeWhile_eq_self_iff.mpr hall, dropWhile_all _ hall,
      runOK_all_digits _ (by simp) h, List.dropWhile_nil, List.isEmpty_nil,
      Bool.and_true, if_true, one_mul, runVal, runDigits_all_digits _ h]

theorem pyIntParse_intDecimal (n : ℤ) : pyIntParse (intDecimal n) = some n := by
  by_cases hneg : n < 0
  · rw [intDecimal, if_pos hneg]
    have hall : ∀ c ∈ natDecimal (-n).toNat, isPyDigit c = true :=
      fun c hc => mem_natDecimal_digit _ c hc
    have hallrun : ∀ c ∈ natDecimal (-n).toNat, isRunChar c = true := by
      intro c hc; simp [isRunChar, hall c hc]
    simp only [pyIntParse, dropWhile_cons_neg _ (show isPySpace '-' = false by rfl),
      parseSign_minus, List.takeWhile_eq_self_iff.mpr hallrun, dropWhile_all _ hallrun,
      runOK_all_digits _ (natDecimal_ne_nil _) hall, List.dropWhile_nil,
      List.isEmpty_nil, Bool.and_true, if_true, runVal,
      runDigits_all_digits _ hall, digitsToNat_natDecimal]
    have htn : (((-n).toNat : ℤ)) = -n := Int.toNat_of_nonneg (by omega)
    rw [htn]
    norm_num
  · rw [intDecimal, if_neg hneg]
    rw [pyIntParse_digits _ (natDecimal_ne_nil _) (fun c hc => mem_natDecimal_digit _ c hc)]
    rw [digitsToNat_natDecimal]
    exact congrArg some (Int.toNat_of_nonneg (by omega))

/-! Lemmas about the series store discipline. -/

theorem length_appendSample_le (C : ℕ) (H : ℤ) (s : List (ℤ × ℚ)) (t : ℤ) (v : ℚ) :
    (appendSample C H s t v).length ≤ C := by
  have hs : appendSample C H s t v <:+ dequeAppend C s (t, v) := List.dropWhile_suffix _
  have h1 : (appendSample C H s t v).length ≤ (dequeAppend C s (t, v)).length :=
    List.Sublist.length_le (List.IsSuffix.sublist hs)
  have h2 : (dequeAppend C s (t, v)).length = (s ++ [(t, v)]).length - (s.length + 1 - C) :=
    List.length_drop _ _
  simp only [List.length_append, List.length_cons, List.length_nil] at h2
  omega

theorem appendSample_suffix (C : ℕ) (H : ℤ) {s pref : List (ℤ × ℚ)}
    (h : s <:+ pref) (t : ℤ) (v : ℚ) :
    appendSample C H s t v <:+ pref ++ [(t, v)] := by
  have h1 : s ++ [(t, v)] <:+ pref ++ [(t, v)] := by
    obtain ⟨u, hu⟩ := h
    exact ⟨u, by rw [← List.append_assoc, hu]⟩
  exact List.IsSuffix.trans (List.dropWhile_suffix _)
    (List.IsSuffix.trans (List.drop_suffix _ _) h1)

theorem foldl_appendSample_suffix (C : ℕ) (H : ℤ) :
    ∀ (samples s pref : List (ℤ × ℚ)), s <:+ pref →
      samples.foldl (fun s p => appendSample C H s p.1 p.2) s <:+ pref ++ samples := by
  intro samples
  induction samples with
  | nil => intro s pref h; simpa using h
  | cons a l ih =>
    intro s pref h
    have step := appendSample_suffix C H h a.1 a.2
    have := ih (appendSample C H s a.1 a.2) (pref ++ [a]) (by simpa using step)
    simpa [List.append_assoc] using this

theorem runSeries_suffix (C : ℕ) (H : ℤ) (samples : List (ℤ × ℚ)) :
    runSeries C H samples <:+ samples := by
  have := foldl_appendSample_suffix C H samples [] [] (List.suffix_refl _)
  simpa [runSeries] using this

theorem length_foldl_appendSample_le (C : ℕ) (H : ℤ) :
    ∀ (samples s : List (ℤ × ℚ)),
      (samples.foldl (fun s p => appendSample C H s p.1 p.2) s).length ≤
        max s.length C := by
  intro samples
  induction samples with
  | nil => intro s; exact le_max_left _ _
  | cons a l ih =>
    intro s
    have h1 := ih (appendSample C H s a.1 a.2)
    have h2 := length_appendSample_le C H s a.1 a.2
    simp only [List.foldl_cons]
    omega

theorem dropWhile_within_horizon (H t : ℤ) :
    ∀ (l : List (ℤ × ℚ)), List.Pairwise (fun a b : ℤ × ℚ => a.1 < b.1) l →
      ∀ x ∈ l.dropWhile (fun p => decide (H < t - p.1)), t - x.1 ≤ H := by
  intro l
  induction l with
  | nil => intro _ x hx; simp at hx
  | cons a r ih =>
    intro hp x hx
    rw [List.pairwise_cons] at hp
    by_cases ha : H < t - a.1
    · rw [List.dropWhile_cons, if_pos (by simpa using ha)] at hx
      exact ih hp.2 x hx
    · rw [List.dropWhile_cons, if_neg (by simpa using ha)] at hx
      rcases List.mem_cons.mp hx with h | h
      · subst h; omega
      · have := hp.1 x h
        omega

/-- C1: after N appends with strictly increasing timestamps into an
    empty series with window capacity C and retention horizon H, the
    series is a suffix of the appended samples (eviction is always
    oldest-first), its timestamps are strictly ascending, and its length
    is at most min(C, number of appends within H of the latest appended
    timestamp). -/
theorem c1_series_append_invariants (C : ℕ) (H : ℤ) (samples : List (ℤ × ℚ))
    (hinc : List.Chain' (fun a b : ℤ × ℚ => a.1 < b.1) samples) :
    runSeries C H samples <:+ samples ∧
    List.Chain' (fun a b : ℤ × ℚ => a.1 < b.1) (runSeries C H samples) ∧
    (runSeries C H samples).length ≤ C ∧
    ∀ last ∈ samples.getLast?, (runSeries C H samples).length ≤
      min C (samples.countP (fun p => decide (last.1 - p.1 ≤ H))) := by
  have hsuf : runSeries C H samples <:+ samples := runSeries_suffix C H samples
  have hchain : List.Chain' (fun a b : ℤ × ℚ => a.1 < b.1) (runSeries C H samples) :=
    List.Chain'.suffix hinc hsuf
  have hlenC : (runSeries C H samples).length ≤ C := by
    have := length_foldl_appendSample_le C H samples []
    simpa [runSeries] using this
  refine ⟨hsuf, hchain, hlenC, ?_⟩
  intro last hlast
  have hne : samples ≠ [] := by
    intro h; subst h; simp at hlast
  obtain ⟨init, lst, hconcat⟩ := (List.eq_nil_or_concat samples).resolve_left hne
  rw [List.concat_eq_append] at hconcat
  have hlst : last = lst := by
    rw [hconcat, List.getLast?_concat] at hlast
    exact (by simpa using hlast : lst = last).symm
  subst hlst
  have hrun : runSeries C H samples =
      (dequeAppend C (runSeries C H init) (last.1, last.2)).dropWhile
        (fun p => decide (H < last.1 - p.1)) := by
    rw [hconcat, runSeries, List.foldl_append]
    rfl
  have hinit_suf : runSeries C H init <:+ init := runSeries_suffix C H init
  have hd_suf : dequeAppend C (runSeries C H init) (last.1, last.2) <:+ samples := by
    have h1 : runSeries C H init ++ [(last.1, last.2)] <:+ samples := by
      obtain ⟨u, hu⟩ := hinit_suf
      exact ⟨u, by rw [← List.append_assoc, hu, hconcat]⟩
    exact List.IsSuffix.trans (List.drop_suffix _ _) h1
  have hd_chain : List.Pairwise (fun a b : ℤ × ℚ => a.1 < b.1)
      (dequeAppend C (runSeries C H init) (last.1, last.2)) := by
    haveI : IsTrans (ℤ × ℚ) (fun a b : ℤ × ℚ => a.1 < b.1) :=
      ⟨fun _ _ _ h1 h2 => lt_trans h1 h2⟩
    exact List.chain'_iff_pairwise.mp (List.Chain'.suffix hinc hd_suf)
  have hall : ∀ x ∈ runSeries C H samples, last.1 - x.1 ≤ H := by
    intro x hx
    rw [hrun] at hx
    exact dropWhile_within_horizon H last.1 _ hd_chain x hx
  have hsub : List.Sublist (runSeries C H samples) samples := List.IsSuffix.sublist hsuf
  have hcount : (runSeries C H samples).length ≤
      samples.countP (fun p => decide (last.1 - p.1 ≤ H)) := by
    have heq : (runSeries C H samples).countP
        (fun p => decide (last.1 - p.1 ≤ H)) = (runSeries C H samples).length := by
      rw [List.countP_eq_length]
      intro a ha
      simpa using hall a ha
    rw [← heq]
    exact List.Sublist.countP_le _ hsub
  omega

/-- Witness for C1 at a concrete run: capacity 2, horizon 10, three
    strictly increasing appends. -/
theorem c1_series_append_invariants_witness :
    runSeries 2 10 [(0, 1), (5, 2), (20, 3)] <:+ [(0, 1), (5, 2), (20, 3)] ∧
    (runSeries 2 10 [(0, 1), (5, 2), (20, 3)]).length ≤
      min 2 (List.countP (fun p => decide ((20 : ℤ) - p.1 ≤ 10)) [(0, 1), (5, 2), (20, 3)]) := by
  have h := c1_series_append_invariants 2 10 [(0, 1), (5, 2), (20, 3)]
    (by simp [List.chain'_cons, List.chain'_singleton])
  exact ⟨h.1, h.2.2.2 (20, 3) (by simp)⟩

/-! Lemmas about the value parser. -/

theorem ne_nil_isEmpty {α : Type} {l : List α} (h : l ≠ []) : l.isEmpty = false := by
  cases l with
  | nil => exact absurd rfl h
  | cons a r => rfl

theorem isPySpace_not_digit {c : Char} (h : isPySpace c = true) : isPyDigit c = false := by
  simp [isPySpace] at h
  simp [isPyDigit]
  omega

theorem isPySpace_ne_dot {c : Char} (h : isPySpace c = true) : c ≠ '.' := by
  intro he; subst he; exact absurd h (by decide)

theorem isUnitChar_facts {u : Char} (hu : isUnitChar u = true) :
    isPyDigit u = false ∧ isPySpace u = false ∧ u ≠ '.' := by
  simp [isUnitChar] at hu
  rcases hu with ((((((((h | h) | h) | h) | h) | h) | h) | h) | h) | h <;> subst h <;>
    exact ⟨rfl, rfl, by decide⟩

theorem pyUpper_unit {u : Char} (hu : isUnitChar u = true) :
    isUnitChar (pyUpper u) = true ∧ pyUpper (pyUpper u) = pyUpper u := by
  simp [isUnitChar] at hu
  rcases hu with ((((((((h | h) | h) | h) | h) | h) | h) | h) | h) | h <;> subst h <;>
    exact ⟨by decide, by decide⟩

theorem decNum_ne_nil {num : List Char} {q : ℚ} (h : DecNum num q) : num ≠ [] := by
  cases h with
  | int d hne _ => exact hne
  | frac d1 d2 _ _ _ => simp

theorem decNum_head {num : List Char} {q : ℚ} (h : DecNum num q) :
    ∀ c r, num = c :: r → (isPyDigit c = true ∨ c = '.') := by
  cases h with
  | int d hne hd =>
    intro c r hcr
    subst hcr
    exact Or.inl (hd c (by simp))
  | frac d1 d2 hne hd1 hd2 =>
    intro c r hcr
    cases d1 with
    | nil =>
      rw [List.nil_append] at hcr
      injection hcr with hc _
      exact Or.inr hc.symm
    | cons a t =>
      rw [List.cons_append] at hcr
      injection hcr with hc _
      rw [← hc]
      exact Or.inl (hd1 a (by simp))

theorem parseDecimal_decnum {num : List Char} {q : ℚ} (rest : List Char)
    (hnum : DecNum num q)
    (hrest : ∀ c r, rest = c :: r → (isPyDigit c = false ∧ c ≠ '.')) :
    parseDecimal (num ++ rest) = some (q, rest) := by
  cases hnum with
  | int d hne hd =>
    have htake : (num ++ rest).takeWhile isPyDigit = num :=
      takeWhile_append_head num rest hd (fun c r hcr => (hrest c r hcr).1)
    have hdrop : (num ++ rest).dropWhile isPyDigit = rest :=
      dropWhile_append_head num rest hd (fun c r hcr => (hrest c r hcr).1)
    cases rest with
    | nil =>
      rw [List.append_nil] at htake hdrop ⊢
      simp only [parseDecimal, htake, hdrop, ne_nil_isEmpty hne]
      simp
    | cons c r =>
      have hc := hrest c r rfl
      simp only [parseDecimal, htake, hdrop, ne_nil_isEmpty hne]
      rw [if_neg hc.2]
      simp
  | frac d1 d2 hne2 hd1 hd2 =>
    have hassoc : (d1 ++ '.' :: d2) ++ rest = d1 ++ '.' :: (d2 ++ rest) := by simp
    have hdotfail : ∀ c r, '.' :: (d2 ++ rest) = c :: r → isPyDigit c = false := by
      intro c r hcr
      injection hcr with hc _
      rw [← hc]
      decide
    have htake1 : (d1 ++ '.' :: (d2 ++ rest)).takeWhile isPyDigit = d1 :=
      takeWhile_append_head d1 _ hd1 hdotfail
    have hdrop1 : (d1 ++ '.' :: (d2 ++ rest)).dropWhile isPyDigit = '.' :: (d2 ++ rest) :=
      dropWhile_append_head d1 _ hd1 hdotfail
    have htake2 : (d2 ++ rest).takeWhile isPyDigit = d2 :=
      takeWhile_append_head d2 rest hd2 (fun c r hcr => (hrest c r hcr).1)
    have hdrop2 : (d2 ++ rest).dropWhile isPyDigit = rest :=
      dropWhile_append_head d2 rest hd2 (fun c r hcr => (hrest c r hcr).1)
    rw [hassoc]
    simp [parseDecimal, htake1, hdrop1, htake2, hdrop2, ne_nil_isEmpty hne2]

theorem matchUnit_decnum_head_not_space {num : List Char} {q : ℚ} (hnum : DecNum num q) :
    ∀ c r tail, num ++ tail = c :: r → isPySpace c = false := by
  intro c r tail hcr
  obtain ⟨c0, r0, h0⟩ : ∃ c0 r0, num = c0 :: r0 := by
    cases hn : num with
    | nil => exact absurd hn (decNum_ne_nil hnum)
    | cons a b => exact ⟨a, b, rfl⟩
  rw [h0, List.cons_append] at hcr
  injection hcr with hc _
  subst hc
  rcases decNum_head hnum c0 r0 h0 with hd | hd
  · exact isPyDigit_not_space hd
  · subst hd; decide

theorem matchUnit_unit_case (ws1 ws2 num : List Char) (q : ℚ) (u : Char)
    (h1 : ∀ c ∈ ws1, isPySpace c = true) (h2 : ∀ c ∈ ws2, isPySpace c = true)
    (hnum : DecNum num q) (hu : isUnitChar u = true) :
    matchUnit (ws1 ++ num ++ u :: ws2) = some (q, some u) := by
  have hl1 : (ws1 ++ num ++ u :: ws2).dropWhile isPySpace = num ++ u :: ws2 := by
    rw [List.append_assoc]
    exact dropWhile_append_head ws1 (num ++ u :: ws2) h1
      (fun c r hcr => matchUnit_decnum_head_not_space hnum c r _ hcr)
  have hpd : parseDecimal (num ++ u :: ws2) = some (q, u :: ws2) :=
    parseDecimal_decnum (u :: ws2) hnum (by
      intro c r hcr
      injection hcr with hc _
      subst hc
      exact ⟨(isUnitChar_facts hu).1, (isUnitChar_facts hu).2.2⟩)
  simp only [matchUnit, hl1, hpd]
  rw [dropWhile_cons_neg ws2 (isUnitChar_facts hu).2.1]
  simp [hu, dropWhile_all ws2 h2]

theorem matchUnit_nounit_case (ws1 ws2 num : List Char) (q : ℚ)
    (h1 : ∀ c ∈ ws1, isPySpace c = true) (h2 : ∀ c ∈ ws2, isPySpace c = true)
    (hnum : DecNum num q) :
    matchUnit (ws1 ++ num ++ ws2) = some (q, Option.none) := by
  have hl1 : (ws1 ++ num ++ ws2).dropWhile isPySpace = num ++ ws2 := by
    rw [List.append_assoc]
    exact dropWhile_append_head ws1 (num ++ ws2) h1
      (fun c r hcr => matchUnit_decnum_head_not_space hnum c r _ hcr)
  have hpd : parseDecimal (num ++ ws2) = some (q, ws2) :=
    parseDecimal_decnum ws2 hnum (by
      intro c r hcr
      have hc := h2 c (by rw [hcr]; simp)
      exact ⟨isPySpace_not_digit hc, isPySpace_ne_dot hc⟩)
  simp only [matchUnit, hl1, hpd]
  simp [dropWhile_all ws2 h2]

/-- C2: for every string made of optional whitespace, a decimal number
    with value q, an optional unit letter among kKmMgGtTpP, and optional
    whitespace, parse_unit_number returns q times the UNIT_MAP entry of
    the upper-cased letter, so the case of the letter does not affect
    the result; plain ints and floats pass through unchanged as
    floats. -/
theorem c2_unit_value_semantics (ws1 ws2 num : List Char) (q : ℚ) (u : Char)
    (h1 : ∀ c ∈ ws1, isPySpace c = true) (h2 : ∀ c ∈ ws2, isPySpace c = true)
    (hnum : DecNum num q) (hu : isUnitChar u = true) :
    parse_unit_number (.vstr (String.mk (ws1 ++ num ++ u :: ws2))) =
      .ok (q * qlookupD UNIT_MAP (String.mk [pyUpper u]) 1) ∧
    parse_unit_number (.vstr (String.mk (ws1 ++ num ++ u :: ws2))) =
      parse_unit_number (.vstr (String.mk (ws1 ++ num ++ pyUpper u :: ws2))) ∧
    parse_unit_number (.vstr (String.mk (ws1 ++ num ++ ws2))) = .ok q ∧
    (∀ n : ℤ, parse_unit_number (.vint n) = .ok ((n : ℚ))) ∧
    (∀ qf : ℚ, parse_unit_number (.vfloat qf) = .ok qf) := by
  have key : ∀ (u' : Char), isUnitChar u' = true →
      parse_unit_number (.vstr (String.mk (ws1 ++ num ++ u' :: ws2))) =
        .ok (q * qlookupD UNIT_MAP (String.mk [pyUpper u']) 1) := by
    intro u' hu'
    have hm : matchUnit (ws1 ++ (num ++ u' :: ws2)) = some (q, some u') := by
      rw [← List.append_assoc]
      exact matchUnit_unit_case ws1 ws2 num q u' h1 h2 hnum hu'
    simp [parse_unit_number, hm, unitKey]
  refine ⟨key u hu, ?_, ?_, fun n => rfl, fun qf => rfl⟩
  · rw [key u hu, key (pyUpper u) (pyUpper_unit hu).1, (pyUpper_unit hu).2]
  · have hm : matchUnit (ws1 ++ (num ++ ws2)) = some (q, Option.none) := by
      rw [← List.append_assoc]
      exact matchUnit_nounit_case ws1 ws2 num q h1 h2 hnum
    have hone : qlookupD UNIT_MAP "" 1 = 1 := rfl
    simp [parse_unit_number, hm, unitKey, hone]

/-- Witness for C2 at the concrete string " 10.7T ". -/
theorem c2_unit_value_semantics_witness :
    parse_unit_number (.vstr (String.mk ([' '] ++ ['1', '0', '.', '7'] ++ 'T' :: [' ']))) =
      .ok 10700000000000 := by
  have h := (c2_unit_value_semantics [' '] [' '] ['1', '0', '.', '7'] _ 'T'
    (by decide) (by decide)
    (DecNum.frac ['1', '0'] ['7'] (by decide) (by decide) (by decide))
    (by decide)).1
  rw [h]
  exact congrArg Except.ok (by decide)

/-- C3 counterexample: Python evaluates isinstance(True, int) to True,
    so parse_unit_number on the boolean True returns 1.0 rather than
    raising the ParseError the claim requires for booleans. -/
theorem c3_bool_counterexample :
    parse_unit_number (.vbool true) = .ok 1 ∧
    parse_unit_number (.vbool true) ≠ .error (.cannotParse (.vbool true)) := by
  refine ⟨rfl, ?_⟩
  intro h
  exact Except.noConfusion h

/-- C3 (amended): every input that is neither numeric — where Python
    counts booleans as numeric, since bool subclasses int — nor a string
    the parser can interpret fails with a ParseError naming the
    offending value; it never returns a result (so never silently 0) and
    never fails another way. -/
theorem c3_parse_error (v : PyVal) (hnum : isNumericPy v = false)
    (hstr : strParseable v = false) :
    parse_unit_number v = .error (.cannotParse v) := by
  cases v with
  | vbool b => simp [isNumericPy] at hnum
  | vint n => simp [isNumericPy] at hnum
  | vfloat q => simp [isNumericPy] at hnum
  | vstr s =>
    simp [strParseable] at hstr
    obtain ⟨hm, hf⟩ := hstr
    have hm' : matchUnit s.data = Option.none := by
      cases h : matchUnit s.data with
      | none => rfl
      | some p => rw [h] at hm; simp at hm
    have hf' : pyFloatParse s.data = Option.none := by
      cases h : pyFloatParse s.data with
      | none => rfl
      | some q => rw [h] at hf; simp at hf
    simp [parse_unit_number, hm', hf']
  | vnone => rfl
  | vlist l => rfl
  | vdict d => rfl

/-- Witness for C3 at the malformed string "abc". -/
theorem c3_parse_error_witness :
    parse_unit_number (.vstr "abc") = .error (.cannotParse (.vstr "abc")) :=
  c3_parse_error (.vstr "abc") rfl (by decide)

/-! Lemmas about the path resolver. -/

theorem segsOf_cons_inv {part : List Char} {rest : List (List Char)}
    {segs : List (String × Option ℕ)} (hm : segsOf (part :: rest) = some segs) :
    ∃ seg segs', parseSegment part = some seg ∧ segsOf rest = some segs' ∧
      segs = seg :: segs' := by
  rw [segsOf] at hm
  cases hps : parseSegment part with
  | none => rw [hps] at hm; exact absurd hm (by simp)
  | some s =>
    rw [hps] at hm
    cases hrest : segsOf rest with
    | none => rw [hrest] at hm; exact absurd hm (by simp)
    | some l =>
      rw [hrest] at hm
      refine ⟨s, l, rfl, rfl, ?_⟩
      injection hm with h
      exact h.symm

theorem pathGo_ok :
    ∀ (parts : List (List Char)) (segs : List (String × Option ℕ)) (obj leaf : PyVal)
      (path : List Char),
      segsOf parts = some segs → HasPath obj segs leaf →
      pathGo path obj parts = .ok leaf := by
  intro parts
  induction parts with
  | nil =>
    intro segs obj leaf path hm hhp
    rw [segsOf] at hm
    injection hm with hm
    subst hm
    cases hhp
    rfl
  | cons part rest ih =>
    intro segs obj leaf path hm hhp
    obtain ⟨seg, segs', hseg, hsegs', rfl⟩ := segsOf_cons_inv hm
    cases hhp with
    | key d k v rest' leaf' hdl hrec =>
      simp only [pathGo, hseg, hdl]
      exact ih segs' v leaf path hsegs' hrec
    | idx d k l i x rest' leaf' hdl hget hrec =>
      simp only [pathGo, hseg, hdl, hget]
      exact ih segs' x leaf path hsegs' hrec

theorem pathGo_notfound :
    ∀ (parts : List (List Char)) (segs : List (String × Option ℕ)) (obj : PyVal)
      (path : List Char),
      segsOf parts = some segs → (∀ leaf, ¬ HasPath obj segs leaf) →
      ∃ e, pathGo path obj parts = .error e ∧ e.isNotFound = true := by
  intro parts
  induction parts with
  | nil =>
    intro segs obj path hm hleaf
    rw [segsOf] at hm
    injection hm with hm
    subst hm
    exact absurd (HasPath.nil obj) (hleaf obj)
  | cons part rest ih =>
    intro segs obj path hm hleaf
    obtain ⟨seg, segs', hseg, hsegs', rfl⟩ := segsOf_cons_inv hm
    obtain ⟨k, io⟩ := seg
    cases obj with
    | vdict d =>
      cases hdl : dlookup d k with
      | none =>
        refine ⟨.keyNotFound k path, ?_, rfl⟩
        simp only [pathGo, hseg, hdl]
      | some v =>
        cases io with
        | none =>
          have hrec : ∀ leaf, ¬ HasPath v segs' leaf := by
            intro leaf hl
            exact hleaf leaf (HasPath.key d k v segs' leaf hdl hl)
          obtain ⟨e, he, hnf⟩ := ih segs' v path hsegs' hrec
          refine ⟨e, ?_, hnf⟩
          simp only [pathGo, hseg, hdl]
          exact he
        | some i =>
          cases v with
          | vlist l =>
            cases hget : l.get? i with
            | none =>
              refine ⟨.indexOutOfRange i k path, ?_, rfl⟩
              simp only [pathGo, hseg, hdl, hget]
            | some x =>
              have hrec : ∀ leaf, ¬ HasPath x segs' leaf := by
                intro leaf hl
                exact hleaf leaf (HasPath.idx d k l i x segs' leaf hdl hget hl)
              obtain ⟨e, he, hnf⟩ := ih segs' x path hsegs' hrec
              refine ⟨e, ?_, hnf⟩
              simp only [pathGo, hseg, hdl, hget]
              exact he
          | vnone => exact ⟨.indexOutOfRange i k path, by simp only [pathGo, hseg, hdl], rfl⟩
          | vbool b => exact ⟨.indexOutOfRange i k path, by simp only [pathGo, hseg, hdl], rfl⟩
          | vint n => exact ⟨.indexOutOfRange i k path, by simp only [pathGo, hseg, hdl], rfl⟩
          | vfloat q => exact ⟨.indexOutOfRange i k path, by simp only [pathGo, hseg, hdl], rfl⟩
          | vstr s => exact ⟨.indexOutOfRange i k path, by simp only [pathGo, hseg, hdl], rfl⟩
          | vdict d2 => exact ⟨.indexOutOfRange i k path, by simp only [pathGo, hseg, hdl], rfl⟩
    | vnone => exact ⟨.keyNotFound k path, by simp only [pathGo, hseg], rfl⟩
    | vbool b => exact ⟨.keyNotFound k path, by simp only [pathGo, hseg], rfl⟩
    | vint n => exact ⟨.keyNotFound k path, by simp only [pathGo, hseg], rfl⟩
    | vfloat q => exact ⟨.keyNotFound k path, by simp only [pathGo, hseg], rfl⟩
    | vstr s => exact ⟨.keyNotFound k path, by simp only [pathGo, hseg], rfl⟩
    | vlist l => exact ⟨.keyNotFound k path, by simp only [pathGo, hseg], rfl⟩

/-- C4: for every path whose segments all match the segment grammar and
    every structure containing the matching nesting, the resolver
    returns exactly the leaf at that location; when the structure lacks
    the nesting — missing key, non-map node at a keyed segment, or
    sequence too short for a bracketed index — it fails with a
    PathNotFound-class error. -/
theorem c4_path_resolver (path : List Char) (segs : List (String × Option ℕ)) (obj : PyVal)
    (hp : parsePath path = some segs) :
    (∀ leaf, HasPath obj segs leaf → get_by_dot_path obj path = .ok leaf) ∧
    ((∀ leaf, ¬ HasPath obj segs leaf) →
      ∃ e, get_by_dot_path obj path = .error e ∧ e.isNotFound = true) := by
  constructor
  · intro leaf hleaf
    exact pathGo_ok (splitOnDot path) segs obj leaf path hp hleaf
  · intro hleaf
    exact pathGo_notfound (splitOnDot path) segs obj path hp hleaf

/-- Witness for C4 at the path a.b[1].c over a concrete nested
    structure. -/
theorem c4_path_resolver_witness :
    get_by_dot_path
      (.vdict [("a", .vdict [("b", .vlist [.vint 0, .vdict [("c", .vint 7)]])])])
      ("a.b[1].c".data) = .ok (.vint 7) :=
  (c4_path_resolver ("a.b[1].c".data)
      [("a", Option.none), ("b", some 1), ("c", Option.none)]
      (.vdict [("a", .vdict [("b", .vlist [.vint 0, .vdict [("c", .vint 7)]])])])
      rfl).1 (.vint 7)
    (HasPath.key _ "a" _ _ _ rfl
      (HasPath.idx _ "b" _ 1 _ _ _ rfl rfl
        (HasPath.key _ "c" _ _ _ rfl (HasPath.nil _))))

/-- C6: the computed metric with the reserved path evaluates to
    max(0, now second lastshare) when the payload carries a numeric
    lastshare, and to 0 when the key is absent (the baseline defaults to
    now); the reserved path dispatches to exactly this computation in
    the metric extractor. -/
theorem c6_lastshare_age (d : List (String × PyVal)) (now_s : ℚ) (v : PyVal) (q : ℚ)
    (scales : List (String × ℚ)) (name : String) (payload : PyVal) :
    (dlookup d "lastshare" = some v → pyFloatOf v = .ok q →
      lastshareAge (.vdict d) now_s = .ok (max 0 (now_s - q))) ∧
    (dlookup d "lastshare" = Option.none → lastshareAge (.vdict d) now_s = .ok 0) ∧
    extractMetric payload now_s scales name computedPath =
      (lastshareAge payload now_s).map (fun x => x * qlookupD scales name 1) := by
  refine ⟨?_, ?_, ?_⟩
  · intro h1 h2
    simp [lastshareAge, h1, h2, Except.map]
  · intro h1
    simp [lastshareAge, h1]
  · simp [extractMetric]

/-- Witness for C6: lastshare five seconds in the past yields 5, and an
    absent lastshare yields 0. -/
theorem c6_lastshare_age_witness :
    lastshareAge (.vdict [("lastshare", .vint 95)]) 100 = .ok 5 ∧
    lastshareAge (.vdict []) 100 = .ok 0 := by
  constructor
  · rw [(c6_lastshare_age [("lastshare", .vint 95)] 100 (.vint 95) 95 [] "" .vnone).1
      rfl rfl]
    exact congrArg Except.ok (by decide)
  · exact (c6_lastshare_age [] 100 .vnone 0 [] "" .vnone).2.1 rfl

/-! Lemmas about the metric loop of the poll cycle. -/

theorem pollCycle_store_frame (scales : List (String × ℚ)) (C : ℕ) (H : ℤ)
    (payload : PyVal) (now_s : ℚ) (t_ms : ℤ) :
    ∀ (l : List (String × List Char)) (acc : Store × List (String × ℚ)) (m : String),
      m ∉ l.map Prod.fst →
      (l.foldl (pollStep scales C H payload now_s t_ms) acc).1 m = acc.1 m := by
  intro l
  induction l with
  | nil => intro acc m _; rfl
  | cons nm rest ih =>
    intro acc m hm
    rw [List.map_cons] at hm
    have hne : m ≠ nm.1 := fun h => hm (by rw [h]; exact List.mem_cons_self _ _)
    have hrest : m ∉ rest.map Prod.fst := fun h => hm (List.mem_cons_of_mem _ h)
    rw [List.foldl_cons, ih _ m hrest]
    cases hx : extractMetric payload now_s scales nm.1 nm.2 with
    | error e => simp [pollStep, hx]
    | ok v => simp [pollStep, hx, updateStore, hne]

theorem pollCycle_batch_no_new (scales : List (String × ℚ)) (C : ℕ) (H : ℤ)
    (payload : PyVal) (now_s : ℚ) (t_ms : ℤ) :
    ∀ (l : List (String × List Char)) (acc : Store × List (String × ℚ)) (m : String),
      m ∉ l.map Prod.fst → m ∉ acc.2.map Prod.fst →
      m ∉ (l.foldl (pollStep scales C H payload now_s t_ms) acc).2.map Prod.fst := by
  intro l
  induction l with
  | nil => intro acc m _ h; exact h
  | cons nm rest ih =>
    intro acc m hm hacc
    rw [List.map_cons] at hm
    have hne : m ≠ nm.1 := fun h => hm (by rw [h]; exact List.mem_cons_self _ _)
    have hrest : m ∉ rest.map Prod.fst := fun h => hm (List.mem_cons_of_mem _ h)
    rw [List.foldl_cons]
    cases hx : extractMetric payload now_s scales nm.1 nm.2 with
    | error e =>
      refine ih _ m hrest ?_
      simpa [pollStep, hx] using hacc
    | ok v =>
      refine ih _ m hrest ?_
      simp only [pollStep, hx, List.map_append, List.map_cons, List.map_nil]
      intro h
      rcases List.mem_append.mp h with h | h
      · exact hacc h
      · rw [List.mem_singleton] at h
        exact hne h

theorem pollCycle_batch_mono (scales : List (String × ℚ)) (C : ℕ) (H : ℤ)
    (payload : PyVal) (now_s : ℚ) (t_ms : ℤ) :
    ∀ (l : List (String × List Char)) (acc : Store × List (String × ℚ))
      (x : String × ℚ), x ∈ acc.2 →
      x ∈ (l.foldl (pollStep scales C H payload now_s t_ms) acc).2 := by
  intro l
  induction l with
  | nil => intro acc x h; exact h
  | cons nm rest ih =>
    intro acc x hx
    rw [List.foldl_cons]
    cases he : extractMetric payload now_s scales nm.1 nm.2 with
    | error e =>
      refine ih _ x ?_
      simpa [pollStep, he] using hx
    | ok v =>
      refine ih _ x ?_
      simp [pollStep, he]
      exact Or.inl hx

/-- C7: in one poll cycle, a per-metric extraction failure (path
    resolution or value parsing) only omits that metric from the batch
    and leaves its series untouched, while every successfully extracted
    metric is appended independently; a cycle where every metric fails
    still runs to completion and yields an empty batch. -/
theorem c7_per_metric_isolation (metrics : List (String × List Char))
    (scales : List (String × ℚ)) (C : ℕ) (H : ℤ) (payload : PyVal) (now_s : ℚ)
    (t_ms : ℤ) (series : Store) (name : String) (path : List Char)
    (hnodup : (metrics.map Prod.fst).Nodup) (hmem : (name, path) ∈ metrics) :
    (extractMetric payload now_s scales name path = .error () →
      (pollCycle metrics scales C H payload now_s t_ms series).1 name = series name ∧
      name ∉ (pollCycle metrics scales C H payload now_s t_ms series).2.map Prod.fst) ∧
    (∀ v, extractMetric payload now_s scales name path = .ok v →
      (pollCycle metrics scales C H payload now_s t_ms series).1 name =
        appendSample C H (series name) t_ms v ∧
      (name, v) ∈ (pollCycle metrics scales C H payload now_s t_ms series).2) := by
  obtain ⟨l1, l2, rfl⟩ := List.append_of_mem hmem
  rw [List.map_append, List.map_cons] at hnodup
  rw [List.nodup_append] at hnodup
  have h1 : name ∉ l1.map Prod.fst := by
    intro h
    exact hnodup.2.2 h (List.mem_cons_self _ _)
  have h2 : name ∉ l2.map Prod.fst := by
    have := hnodup.2.1
    rw [List.nodup_cons] at this
    exact this.1
  have hsplit : pollCycle (l1 ++ (name, path) :: l2) scales C H payload now_s t_ms series =
      l2.foldl (pollStep scales C H payload now_s t_ms)
        (pollStep scales C H payload now_s t_ms
          (l1.foldl (pollStep scales C H payload now_s t_ms) (series, []))
          (name, path)) := by
    rw [pollCycle, List.foldl_append, List.foldl_cons]
  have hacc1_store : (l1.foldl (pollStep scales C H payload now_s t_ms) (series, [])).1 name
      = series name := pollCycle_store_frame scales C H payload now_s t_ms l1 _ name h1
  have hacc1_batch : name ∉
      (l1.foldl (pollStep scales C H payload now_s t_ms) (series, [])).2.map Prod.fst :=
    pollCycle_batch_no_new scales C H payload now_s t_ms l1 _ name h1 (by simp)
  constructor
  · intro herr
    have hstep : pollStep scales C H payload now_s t_ms
        (l1.foldl (pollStep scales C H payload now_s t_ms) (series, [])) (name, path) =
        l1.foldl (pollStep scales C H payload now_s t_ms) (series, []) := by
      simp [pollStep, herr]
    rw [hsplit, hstep]
    exact ⟨by rw [pollCycle_store_frame scales C H payload now_s t_ms l2 _ name h2,
        hacc1_store],
      pollCycle_batch_no_new scales C H payload now_s t_ms l2 _ name h2 hacc1_batch⟩
  · intro v hok
    have hstep : pollStep scales C H payload now_s t_ms
        (l1.foldl (pollStep scales C H payload now_s t_ms) (series, [])) (name, path) =
        (updateStore (l1.foldl (pollStep scales C H payload now_s t_ms) (series, [])).1
          name (appendSample C H (series name) t_ms v),
         (l1.foldl (pollStep scales C H payload now_s t_ms) (series, [])).2 ++
           [(name, v)]) := by
      simp [pollStep, hok, hacc1_store]
    rw [hsplit, hstep]
    constructor
    · rw [pollCycle_store_frame scales C H payload now_s t_ms l2 _ name h2]
      simp [updateStore]
    · exact pollCycle_batch_mono scales C H payload now_s t_ms l2 _ (name, v)
        (by simp)

/-- Witness for C7: a payload missing hashrate1m omits that metric and
    still appends the workers metric. -/
theorem c7_per_metric_isolation_witness :
    (pollCycle [("HR1m", "hashrate1m".data), ("Workers", "workers".data)] [] 10 1000
      (.vdict [("workers", .vint 3)]) 0 0 emptyStore).1 "HR1m" = emptyStore "HR1m" ∧
    "HR1m" ∉ (pollCycle [("HR1m", "hashrate1m".data), ("Workers", "workers".data)] [] 10
      1000 (.vdict [("workers", .vint 3)]) 0 0 emptyStore).2.map Prod.fst :=
  (c7_per_metric_isolation [("HR1m", "hashrate1m".data), ("Workers", "workers".data)]
      [] 10 1000 (.vdict [("workers", .vint 3)]) 0 0 emptyStore "HR1m" "hashrate1m".data
      (by decide) (List.mem_cons_self _ _)).1 rfl

/-- C8: a failed upstream fetch aborts the whole cycle: the series store
    and the durable log are exactly as before the tick, and the poller
    loop goes on to process the remaining scheduled ticks. -/
theorem c8_fetch_failure_aborts_cycle (metrics : List (String × List Char))
    (scales : List (String × ℚ)) (C : ℕ) (H : ℤ) (now_s : ℚ) (t_ms : ℤ)
    (st : PollState) (ticks1 ticks2 : List (Except Unit PyVal × ℚ × ℤ)) :
    pollTick metrics scales C H (.error ()) now_s t_ms st = st ∧
    (pollTick metrics scales C H (.error ()) now_s t_ms st).series = st.series ∧
    (pollTick metrics scales C H (.error ()) now_s t_ms st).log = st.log ∧
    runPoller metrics scales C H (ticks1 ++ (.error (), now_s, t_ms) :: ticks2) st =
      runPoller metrics scales C H ticks2 (runPoller metrics scales C H ticks1 st) := by
  refine ⟨rfl, rfl, rfl, ?_⟩
  rw [runPoller, List.foldl_append, List.foldl_cons]
  rfl

/-- C10: an append mutates only the appended metric's series, and a
    metric absent from the cycle's metric list keeps its series — stale
    samples included — unchanged through the cycle. -/
theorem c10_append_frame (series : Store) (name m : String) (t : ℤ) (v : ℚ) (C : ℕ)
    (H : ℤ) (metrics : List (String × List Char)) (scales : List (String × ℚ))
    (payload : PyVal) (now_s : ℚ) (t_ms : ℤ) :
    (m ≠ name → updateStore series name (appendSample C H (series name) t v) m =
      series m) ∧
    (m ∉ metrics.map Prod.fst →
      (pollCycle metrics scales C H payload now_s t_ms series).1 m = series m) := by
  constructor
  · intro hne
    simp [updateStore, hne]
  · intro hm
    exact pollCycle_store_frame scales C H payload now_s t_ms metrics _ m hm

/-- Witness for C10: appending to metric B leaves metric A's stale
    sample in place, in the single append and through a whole cycle. -/
theorem c10_append_frame_witness :
    updateStore (fun n => if n = "A" then [(0, 1)] else []) "B"
      (appendSample 10 3600000 ((fun n : String => if n = "A" then [((0 : ℤ), (1 : ℚ))] else []) "B")
        1000000 5) "A" = (fun n : String => if n = "A" then [((0 : ℤ), (1 : ℚ))] else []) "A" ∧
    (pollCycle [("B", "workers".data)] [] 10 3600000 (.vdict [("workers", .vint 2)]) 0
      1000000 (fun n => if n = "A" then [(0, 1)] else [])).1 "A" =
      (fun n : String => if n = "A" then [((0 : ℤ), (1 : ℚ))] else []) "A" :=
  ⟨(c10_append_frame (fun n => if n = "A" then [(0, 1)] else []) "B" "A" 1000000 5 10
      3600000 [("B", "workers".data)] [] (.vdict [("workers", .vint 2)]) 0 1000000).1
      (by decide),
   (c10_append_frame (fun n => if n = "A" then [(0, 1)] else []) "B" "A" 1000000 5 10
      3600000 [("B", "workers".data)] [] (.vdict [("workers", .vint 2)]) 0 1000000).2
      (by decide)⟩

/-! Lemmas about the durable log. -/

theorem rowField_header_ts (a b c : String) :
    rowField CSV_HEADER [a, b, c] "ts_ms" = some a := rfl

theorem rowField_header_metric (a b c : String) :
    rowField CSV_HEADER [a, b, c] "metric" = some b := rfl

theorem rowField_header_value (a b c : String) :
    rowField CSV_HEADER [a, b, c] "value" = some c := rfl

theorem parseLoadRow_persistRow (cutoff : ℤ) (known : List String) (ts : ℤ)
    (m : String) (v : ℚ) (hm : m ∈ known)
    (hv : pyFloatParse (format12g v) = some v) (hcov : cutoff ≤ ts) :
    parseLoadRow cutoff known (persistRow ts (m, v)) = some (m, ts, v) := by
  have hts : (String.mk (intDecimal ts)).data = intDecimal ts := rfl
  have hvs : (String.mk (format12g v)).data = format12g v := rfl
  simp only [parseLoadRow, persistRow, rowField_header_ts, rowField_header_metric,
    rowField_header_value, hts, hvs, pyIntParse_intDecimal, hv]
  rw [if_neg (by omega), if_pos hm]

theorem parseLoadRow_metric (cutoff : ℤ) (known : List String) (a b c : String)
    (r : String × ℤ × ℚ) (h : parseLoadRow cutoff known [a, b, c] = some r) :
    r.1 = b := by
  simp only [parseLoadRow, rowField_header_ts, rowField_header_metric,
    rowField_header_value] at h
  cases h2 : pyIntParse a.data with
  | none => simp only [h2] at h; exact Option.noConfusion h
  | some ts =>
    simp only [h2] at h
    by_cases hlt : ts < cutoff
    · simp only [if_pos hlt] at h; exact Option.noConfusion h
    · simp only [if_neg hlt] at h
      by_cases hbm : b ∈ known
      · simp only [if_pos hbm] at h
        cases h3 : pyFloatParse c.data with
        | none => simp only [h3] at h; exact Option.noConfusion h
        | some v =>
          simp only [h3] at h
          injection h with h
          rw [← h]
      · simp only [if_neg hbm] at h; exact Option.noConfusion h

theorem loadStep_persistRow_frame (cutoff : ℤ) (known : List String) (C : ℕ) (ts : ℤ) :
    ∀ (part : List (String × ℚ)) (st : Store) (m : String),
      m ∉ part.map Prod.fst →
      (part.map (persistRow ts)).foldl (loadStep cutoff known C) st m = st m := by
  intro part
  induction part with
  | nil => intro st m _; rfl
  | cons p rest ih =>
    intro st m hm
    rw [List.map_cons] at hm
    have hne : m ≠ p.1 := fun h => hm (by rw [h]; exact List.mem_cons_self _ _)
    have hrest : m ∉ rest.map Prod.fst := fun h => hm (List.mem_cons_of_mem _ h)
    rw [List.map_cons, List.foldl_cons]
    rw [ih _ m hrest]
    cases hp : parseLoadRow cutoff known (persistRow ts p) with
    | none => simp [loadStep, hp]
    | some r =>
      have hr1 : r.1 = p.1 := parseLoadRow_metric cutoff known _ _ _ r hp
      simp [loadStep, hp, updateStore, hr1, hne]

/-- C5 (amended): appending one batch to a fresh durable log and loading
    it back with a covering horizon and a known-metric set containing
    the batch returns, per batch metric, exactly its (timestamp, value)
    pair — provided each value survives its 12-significant-digit
    rendering — and nothing for other known metrics.  (The %.12g
    rendering does not round-trip every 64-bit float; see the
    counterexample.) -/
theorem c5_durable_roundtrip (ts cutoff : ℤ) (batch : List (String × ℚ))
    (known : List String) (C : ℕ)
    (hnodup : (batch.map Prod.fst).Nodup)
    (hknown : ∀ p ∈ batch, p.1 ∈ known)
    (hround : ∀ p ∈ batch, pyFloatParse (format12g p.2) = some p.2)
    (hcov : cutoff ≤ ts) (hC : 1 ≤ C) :
    ∀ m v,
      ((m, v) ∈ batch →
        load_history (some (persist_append Option.none ts batch)) cutoff known C m =
          [(ts, v)]) ∧
      (m ∉ batch.map Prod.fst →
        load_history (some (persist_append Option.none ts batch)) cutoff known C m =
          []) := by
  have hfile : persist_append Option.none ts batch = (CSV_HEADER, batch.map (persistRow ts)) := by
    simp [persist_append, persistRow]
  have hload : load_history (some (persist_append Option.none ts batch)) cutoff known C =
      (batch.map (persistRow ts)).foldl (loadStep cutoff known C) emptyStore := by
    rw [hfile, load_history, if_pos rfl]
  intro m v
  constructor
  · intro hmem
    obtain ⟨b1, b2, rfl⟩ := List.append_of_mem hmem
    rw [List.map_append, List.map_cons] at hnodup
    rw [List.nodup_append] at hnodup
    have h1 : m ∉ b1.map Prod.fst := by
      intro h
      exact hnodup.2.2 h (List.mem_cons_self _ _)
    have h2 : m ∉ b2.map Prod.fst := by
      have := hnodup.2.1
      rw [List.nodup_cons] at this
      exact this.1
    rw [hload, List.map_append, List.map_cons, List.foldl_append, List.foldl_cons]
    have hst1 : (b1.map (persistRow ts)).foldl (loadStep cutoff known C) emptyStore m =
        [] := loadStep_persistRow_frame cutoff known C ts b1 emptyStore m h1
    have hparse : parseLoadRow cutoff known (persistRow ts (m, v)) = some (m, ts, v) :=
      parseLoadRow_persistRow cutoff known ts m v
        (hknown (m, v) hmem) (hround (m, v) hmem) hcov
    have hstep : loadStep cutoff known C
        ((b1.map (persistRow ts)).foldl (loadStep cutoff known C) emptyStore)
        (persistRow ts (m, v)) =
        updateStore ((b1.map (persistRow ts)).foldl (loadStep cutoff known C) emptyStore)
          m [(ts, v)] := by
      simp only [loadStep, hparse]
      rw [hst1]
      have h10 : 1 - C = 0 := by omega
      have hdeq : dequeAppend C ([] : List (ℤ × ℚ)) (ts, v) = [(ts, v)] := by
        simp [dequeAppend, h10]
      rw [hdeq]
    rw [hstep, loadStep_persistRow_frame cutoff known C ts b2 _ m h2]
    simp [updateStore]
  · intro hm
    rw [hload, loadStep_persistRow_frame cutoff known C ts batch emptyStore m hm]
    rfl

/-- C5 counterexample: the value 123456789012345 is exactly
    representable as a 64-bit float, but the %.12g rendering written by
    _persist_append reads back as 123456789012000, so append-then-load
    does not round-trip the value. -/
theorem c5_roundtrip_counterexample :
    load_history (some (persist_append Option.none 0 [("Workers", 123456789012345)])) 0
      ["Workers"] 1000 "Workers" = [(0, 123456789012000)] ∧
    (123456789012000 : ℚ) ≠ 123456789012345 := by
  exact ⟨by decide, by decide⟩

/-- Witness for C5 on a two-metric batch whose values are exactly
    representable in 12 significant digits. -/
theorem c5_durable_roundtrip_witness :
    load_history (some (persist_append Option.none 100 [("Workers", 3), ("Age", 21 / 2)]))
      0 ["Workers", "Age", "HR1m"] 1000 "Age" = [(100, 21 / 2)] ∧
    load_history (some (persist_append Option.none 100 [("Workers", 3), ("Age", 21 / 2)]))
      0 ["Workers", "Age", "HR1m"] 1000 "HR1m" = [] := by
  have h := c5_durable_roundtrip 100 0 [("Workers", 3), ("Age", 21 / 2)]
    ["Workers", "Age", "HR1m"] 1000 (by decide) (by decide) (by decide) (by decide)
    (by decide)
  exact ⟨(h "Age" (21 / 2)).1 (by decide), (h "HR1m" 0).2 (by decide)⟩

/-! Lemmas about the compactor. -/

theorem compactRow_idem (cutoff : ℤ) (M : List String) (hdr row out : List String)
    (h : compactRow cutoff M hdr row = some out) :
    compactRow cutoff M CSV_HEADER out = some out := by
  cases h1 : rowField hdr row "ts_ms" with
  | none => simp only [compactRow, h1] at h; exact Option.noConfusion h
  | some tsS =>
    simp only [compactRow, h1] at h
    cases h2 : pyIntParse tsS.data with
    | none => simp only [h2] at h; exact Option.noConfusion h
    | some ts =>
      simp only [h2] at h
      cases h3 : rowField hdr row "metric" with
      | none => simp only [h3] at h; exact Option.noConfusion h
      | some m =>
        simp only [h3] at h
        by_cases hc : cutoff ≤ ts ∧ m ∈ M
        · simp only [if_pos hc] at h
          cases h4 : rowField hdr row "value" with
          | none => simp only [h4] at h; exact Option.noConfusion h
          | some vS =>
            simp only [h4] at h
            injection h with h
            rw [← h]
            simp only [compactRow, rowField_header_ts, h2, rowField_header_metric,
              if_pos hc, rowField_header_value]
        · simp only [if_neg hc] at h
          exact Option.noConfusion h

theorem filterMap_id_of_mem {α : Type} (g : α → Option α) :
    ∀ (l : List α), (∀ a ∈ l, g a = some a) → l.filterMap g = l := by
  intro l
  induction l with
  | nil => intro _; rfl
  | cons a r ih =>
    intro h
    rw [List.filterMap_cons, h a (List.mem_cons_self _ _), ih (fun x hx => h x (List.mem_cons_of_mem _ hx))]

/-- C9: compaction is idempotent on the observable file contents:
    recompacting the output of a compaction with the same cutoff and
    metric set yields the identical header and rows. -/
theorem c9_compaction_idempotent (file : CsvFile) (cutoff : ℤ) (M : List String) :
    compact_csv (compact_csv file cutoff M) cutoff M = compact_csv file cutoff M := by
  rw [compact_csv, compact_csv]
  have hmem : ∀ out ∈ file.2.filterMap (compactRow cutoff M file.1),
      compactRow cutoff M CSV_HEADER out = some out := by
    intro out hout
    rw [List.mem_filterMap] at hout
    obtain ⟨row, _, hrow⟩ := hout
    exact compactRow_idem cutoff M file.1 row out hrow
  rw [filterMap_id_of_mem _ _ hmem]

end MinerPoll
